import Mathlib

/-!
Verification of the WebSentinel change-detection core (diff.js and the
scanner's detectChange), shallowly embedded in Lean 4.

Strings are modelled as List Char (JS strings are sequences of UTF-16 code
units; for the Basic-Multilingual-Plane text handled here one code unit
corresponds to one Char, and no claim depends on surrogate pairs).
JS numbers are modelled as exact integers: every arithmetic operation the
code performs (lengths, +, -, min, max, and the single comparison
abs(m - n) > max(m, n) * 0.5, which is exact in binary floating point for
integer operands below 2^52) stays inside the exactly-representable range.
-/

namespace WebSentinel

def toL (s : String) : List Char := s.toList

/-- The character class of the JS regex \s and of String.prototype.trim:
ECMA-262 WhiteSpace plus LineTerminator. -/
def isJsWs (c : Char) : Bool :=
  c.toNat == 9 || c.toNat == 10 || c.toNat == 11 || c.toNat == 12 ||
  c.toNat == 13 || c.toNat == 32 || c.toNat == 0xa0 || c.toNat == 0x1680 ||
  (0x2000 ≤ c.toNat && c.toNat ≤ 0x200a) || c.toNat == 0x2028 ||
  c.toNat == 0x2029 || c.toNat == 0x202f || c.toNat == 0x205f ||
  c.toNat == 0x3000 || c.toNat == 0xfeff

/-- Case-insensitive character comparison, as performed by the /i regex flag
(canonicalisation by upper-casing; the patterns involved are ASCII). -/
def ciEq (a b : Char) : Bool := a.toUpper == b.toUpper

/-- Does the second list start with the first, case-insensitively? -/
def startsWithCI : List Char → List Char → Bool
  | [], _ => true
  | _ :: _, [] => false
  | p :: ps, c :: cs => ciEq p c && startsWithCI ps cs

/-- One left-to-right pass of .replace(open[\s\S]*?close, empty) with the /gi
flags, for a literal open token (such as <script) and close token (such as
</script>).  The scanner state is none while outside a candidate match and
some buf (buf = consumed characters since the match start, in reverse) while
inside one.  A match is complete as soon as the consumed region ends with the
close token, provided the close token starts at or after the end of the open
token (that is the [\s\S]*? region; hence the length guard).  The lazy
quantifier means the first such completion wins.  An open token that is never
followed by a close token matches nothing, and no later start position can
match either, since any close occurrence after a later open would also
follow the earlier one; the consumed characters are then emitted verbatim.
cloRev is the close token reversed. -/
def stripBlocksGo (openT cloRev : List Char) : Option (List Char) → List Char → List Char
  | none, [] => []
  | some buf, [] => buf.reverse
  | none, c :: cs =>
      if startsWithCI openT (c :: cs) then stripBlocksGo openT cloRev (some [c]) cs
      else c :: stripBlocksGo openT cloRev none cs
  | some buf, c :: cs =>
      if openT.length + cloRev.length ≤ (c :: buf).length && startsWithCI cloRev (c :: buf) then
        stripBlocksGo openT cloRev none cs
      else stripBlocksGo openT cloRev (some (c :: buf)) cs

def removeScripts (s : List Char) : List Char :=
  stripBlocksGo (toL "<script") (toL "</script>").reverse none s

def removeStyles (s : List Char) : List Char :=
  stripBlocksGo (toL "<style") (toL "</style>").reverse none s

/-- One pass of .replace(/<[^>]+>/g, one space).  State none: outside any
candidate tag.  State some buf: a < has been seen and buf (reversed) is the
consumed region.  On > the tag is complete when at least one character stands
between < and > (the + quantifier); the empty candidate <> does not match, so
its two characters are emitted and scanning resumes after them (no later
match can start inside them, since neither < nor the buffered non-> characters
can begin a new match that the current one would not have found).  At the end
of input an unterminated candidate is emitted verbatim: no position inside it
can start a match because no > occurs after it. -/
def stripTagsGo : Option (List Char) → List Char → List Char
  | none, [] => []
  | some buf, [] => buf.reverse
  | none, c :: cs =>
      if c = '<' then stripTagsGo (some [c]) cs
      else c :: stripTagsGo none cs
  | some buf, c :: cs =>
      if c = '>' then
        if buf = ['<'] then '<' :: '>' :: stripTagsGo none cs
        else ' ' :: stripTagsGo none cs
      else stripTagsGo (some (c :: buf)) cs

def stripTags (s : List Char) : List Char := stripTagsGo none s

/-- .replace(/&nbsp;/g, one space): literal global replacement, scanning
resumes after the replacement, which is not itself rescanned. -/
def decNbsp : List Char → List Char
  | '&' :: 'n' :: 'b' :: 's' :: 'p' :: ';' :: rest => ' ' :: decNbsp rest
  | c :: cs => c :: decNbsp cs
  | [] => []

/-- .replace(/&amp;/g, ampersand). -/
def decAmp : List Char → List Char
  | '&' :: 'a' :: 'm' :: 'p' :: ';' :: rest => '&' :: decAmp rest
  | c :: cs => c :: decAmp cs
  | [] => []

/-- .replace(/&lt;/g, less-than). -/
def decLt : List Char → List Char
  | '&' :: 'l' :: 't' :: ';' :: rest => '<' :: decLt rest
  | c :: cs => c :: decLt cs
  | [] => []

/-- .replace(/&gt;/g, greater-than). -/
def decGt : List Char → List Char
  | '&' :: 'g' :: 't' :: ';' :: rest => '>' :: decGt rest
  | c :: cs => c :: decGt cs
  | [] => []

/-- .replace(/&quot;/g, double quote). -/
def decQuot : List Char → List Char
  | '&' :: 'q' :: 'u' :: 'o' :: 't' :: ';' :: rest => '"' :: decQuot rest
  | c :: cs => c :: decQuot cs
  | [] => []

/-- .replace(/\s+/g, one space): each maximal whitespace run becomes a single
space.  The flag records whether the previous character was whitespace (i.e.
whether we are inside a run whose replacement space was already emitted). -/
def collapseGo (prevWs : Bool) : List Char → List Char
  | [] => []
  | c :: cs =>
      if isJsWs c then
        if prevWs then collapseGo true cs else ' ' :: collapseGo true cs
      else c :: collapseGo false cs

def trimLeft (s : List Char) : List Char := s.dropWhile isJsWs

def trimRight (s : List Char) : List Char := (s.reverse.dropWhile isJsWs).reverse

/-- String.prototype.trim. -/
def trimWs (s : List Char) : List Char := trimRight (trimLeft s)

/-- extractText from diff.js: remove script and style regions, strip tags to
spaces, decode the five fixed entities, collapse whitespace, trim. -/
def extractText (html : List Char) : List Char :=
  if html = [] then []
  else
    trimWs (collapseGo false
      (decQuot (decGt (decLt (decAmp (decNbsp
        (stripTags (removeStyles (removeScripts html)))))))))

theorem extractText_example1 : extractText (toL "<p>Hello world</p>") = toL "Hello world" := by
  decide

theorem extractText_example2 :
    extractText (toL "<p>Hello</p><script>alert(1)</script><p>World</p>") = toL "Hello World" := by
  decide

theorem extractText_example3 :
    extractText (toL "<style>body .x \x7bcolor:red\x7d</style><p>Content</p>") = toL "Content" := by
  decide

theorem extractText_example4 :
    extractText (toL "<p>Hello&nbsp;world&amp;test</p>") = toL "Hello world&test" := by
  decide

/-! ## Character-level edit distance -/

/-- Reference Levenshtein distance by the textbook recurrence (cost 0 for a
matching pair, otherwise the best of substitution, deletion, insertion). -/
def lev : List Char → List Char → Nat
  | [], ys => ys.length
  | x :: xs, [] => (x :: xs).length
  | x :: xs, y :: ys =>
      min (lev xs ys + (if x = y then 0 else 1))
        (min (lev xs (y :: ys) + 1) (lev (x :: xs) ys + 1))

/-- An alignment witnessing that the first list can be turned into the second
by n single-character operations: copy (free), substitute, delete, insert. -/
inductive Transforms : List Char → List Char → Nat → Prop
  | nil : Transforms [] [] 0
  | copy (c : Char) {xs ys : List Char} {n : Nat} :
      Transforms xs ys n → Transforms (c :: xs) (c :: ys) n
  | subst (c d : Char) {xs ys : List Char} {n : Nat} :
      Transforms xs ys n → Transforms (c :: xs) (d :: ys) (n + 1)
  | del (c : Char) {xs ys : List Char} {n : Nat} :
      Transforms xs ys n → Transforms (c :: xs) ys (n + 1)
  | ins (d : Char) {xs ys : List Char} {n : Nat} :
      Transforms xs ys n → Transforms xs (d :: ys) (n + 1)

theorem lev_nil_left (ys : List Char) : lev [] ys = ys.length := by
  cases ys <;> simp [lev]

theorem lev_nil_right (xs : List Char) : lev xs [] = xs.length := by
  cases xs <;> simp [lev]

theorem lev_cons_cons (x y : Char) (xs ys : List Char) :
    lev (x :: xs) (y :: ys) =
      min (lev xs ys + (if x = y then 0 else 1))
        (min (lev xs (y :: ys) + 1) (lev (x :: xs) ys + 1)) := by
  rw [lev]

/-- Every alignment costs at least the recurrence value. -/
theorem lev_le_of_transforms {a b : List Char} {n : Nat} (h : Transforms a b n) :
    lev a b ≤ n := by
  induction h with
  | nil => simp [lev]
  | copy c h ih =>
      rw [lev_cons_cons]
      refine le_trans (min_le_left _ _) ?_
      simpa using ih
  | subst c d h ih =>
      rw [lev_cons_cons]
      refine le_trans (min_le_left _ _) ?_
      split <;> omega
  | del c h ih =>
      rename_i xs ys n
      cases ys with
      | nil => rw [lev_nil_right] at ih ⊢; simp at ih ⊢; omega
      | cons y ys =>
          rw [lev_cons_cons]
          refine le_trans (min_le_right _ _) (le_trans (min_le_left _ _) ?_)
          omega
  | ins d h ih =>
      rename_i xs ys n
      cases xs with
      | nil => rw [lev_nil_left] at ih ⊢; simp; omega
      | cons x xs =>
          rw [lev_cons_cons]
          refine le_trans (min_le_right _ _) (le_trans (min_le_right _ _) ?_)
          omega

theorem transforms_nil_right : ∀ a : List Char, Transforms a [] a.length := by
  intro a
  induction a with
  | nil => exact Transforms.nil
  | cons x xs ih => exact Transforms.del x ih

theorem transforms_nil_left : ∀ b : List Char, Transforms [] b b.length := by
  intro b
  induction b with
  | nil => exact Transforms.nil
  | cons y ys ih => exact Transforms.ins y ih

/-- The recurrence value is attained by some alignment. -/
theorem transforms_lev : ∀ a b : List Char, Transforms a b (lev a b) := by
  intro a
  induction a with
  | nil =>
      intro b
      rw [lev_nil_left]
      exact transforms_nil_left b
  | cons x xs ihx =>
      intro b
      induction b with
      | nil =>
          rw [lev_nil_right]
          exact transforms_nil_right _
      | cons y ys ihy =>
          rw [lev_cons_cons]
          rcases Nat.lt_trichotomy (lev xs ys + (if x = y then 0 else 1))
              (min (lev xs (y :: ys) + 1) (lev (x :: xs) ys + 1)) with hlt | heq | hgt
          · rw [min_eq_left (le_of_lt hlt)]
            by_cases hxy : x = y
            · subst hxy; simpa using Transforms.copy x (ihx ys)
            · simp only [hxy, if_false]
              exact Transforms.subst x y (ihx ys)
          · rw [min_eq_left (le_of_eq heq)]
            by_cases hxy : x = y
            · subst hxy; simpa using Transforms.copy x (ihx ys)
            · simp only [hxy, if_false]
              exact Transforms.subst x y (ihx ys)
          · rw [min_eq_right (le_of_lt hgt)]
            rcases le_total (lev xs (y :: ys) + 1) (lev (x :: xs) ys + 1) with hle | hle
            · rw [min_eq_left hle]
              exact Transforms.del x (ihx (y :: ys))
            · rw [min_eq_right hle]
              exact Transforms.ins y ihy

theorem Transforms.symm {a b : List Char} {n : Nat} (h : Transforms a b n) :
    Transforms b a n := by
  induction h with
  | nil => exact Transforms.nil
  | copy c _ ih => exact Transforms.copy c ih
  | subst c d _ ih => exact Transforms.subst d c ih
  | del c _ ih => exact Transforms.ins c ih
  | ins d _ ih => exact Transforms.del d ih

theorem Transforms.append {a b c d : List Char} {n m : Nat}
    (h₁ : Transforms a b n) (h₂ : Transforms c d m) :
    Transforms (a ++ c) (b ++ d) (n + m) := by
  induction h₁ with
  | nil => simpa using h₂
  | copy e _ ih => exact Transforms.copy e ih
  | subst e f _ ih =>
      have := Transforms.subst e f ih
      simpa [Nat.add_right_comm] using this
  | del e _ ih =>
      have := Transforms.del e ih
      simpa [Nat.add_right_comm] using this
  | ins f _ ih =>
      have := Transforms.ins f ih
      simpa [Nat.add_right_comm] using this

theorem Transforms.rev {a b : List Char} {n : Nat} (h : Transforms a b n) :
    Transforms a.reverse b.reverse n := by
  induction h with
  | nil => exact Transforms.nil
  | copy c _ ih =>
      have := Transforms.append ih (Transforms.copy c Transforms.nil)
      simpa using this
  | subst c d _ ih =>
      have := Transforms.append ih (Transforms.subst c d Transforms.nil)
      simpa using this
  | del c _ ih =>
      have := Transforms.append ih (Transforms.del c Transforms.nil)
      simpa using this
  | ins d _ ih =>
      have := Transforms.append ih (Transforms.ins d Transforms.nil)
      simpa using this

theorem lev_symm (a b : List Char) : lev a b = lev b a :=
  le_antisymm (lev_le_of_transforms (transforms_lev b a).symm)
    (lev_le_of_transforms (transforms_lev a b).symm)

theorem lev_rev (a b : List Char) : lev a.reverse b.reverse = lev a b := by
  refine le_antisymm (lev_le_of_transforms (transforms_lev a b).rev) ?_
  have := (transforms_lev a.reverse b.reverse).rev
  simpa using lev_le_of_transforms this

theorem transforms_zero_eq {a b : List Char} {n : Nat}
    (h : Transforms a b n) (hn : n = 0) : a = b := by
  induction h with
  | nil => rfl
  | copy c _ ih => rw [ih hn]
  | subst c d _ ih => omega
  | del c _ ih => omega
  | ins d _ ih => omega

theorem lev_self (a : List Char) : lev a a = 0 :=
  Nat.le_zero.mp (by
    induction a with
    | nil => simp [lev]
    | cons x xs ih =>
        rw [lev_cons_cons]
        calc min _ _ ≤ lev xs xs + (if x = x then 0 else 1) := min_le_left _ _
          _ ≤ 0 := by simpa using ih)

theorem lev_eq_zero_iff (a b : List Char) : lev a b = 0 ↔ a = b := by
  constructor
  · intro h
    exact transforms_zero_eq (h ▸ transforms_lev a b) rfl
  · rintro rfl
    exact lev_self a

theorem lev_cons_left_le (c : Char) (xs ys : List Char) :
    lev (c :: xs) ys ≤ lev xs ys + 1 :=
  lev_le_of_transforms (Transforms.del c (transforms_lev xs ys))

/-- Removing the head of the second list changes the distance by at most one
more than the given alignment cost. -/
theorem lev_tail_right_of_transforms {a : List Char} {y : Char} {ys : List Char} {n : Nat}
    (h : Transforms a (y :: ys) n) : lev a ys ≤ n + 1 := by
  generalize hb : y :: ys = b at h
  induction h generalizing y ys with
  | nil => cases hb
  | copy c h ih =>
      cases hb
      exact le_trans (lev_cons_left_le _ _ _) (by have := lev_le_of_transforms h; omega)
  | subst c d h ih =>
      cases hb
      exact le_trans (lev_cons_left_le _ _ _) (by have := lev_le_of_transforms h; omega)
  | del c h ih =>
      exact le_trans (lev_cons_left_le _ _ _) (by have := ih hb; omega)
  | ins d h ih =>
      cases hb
      have := lev_le_of_transforms h
      omega

theorem lev_cons_right_le (xs : List Char) (y : Char) (ys : List Char) :
    lev xs ys ≤ lev xs (y :: ys) + 1 :=
  lev_tail_right_of_transforms (transforms_lev xs (y :: ys))

theorem lev_cons_left_le' (x : Char) (xs ys : List Char) :
    lev xs ys ≤ lev (x :: xs) ys + 1 := by
  rw [lev_symm xs ys, lev_symm (x :: xs) ys]
  exact lev_cons_right_le ys x xs

/-- With equal heads the recurrence collapses to the diagonal, as the rolling
code exploits. -/
theorem lev_cons_cons_self (x : Char) (xs ys : List Char) :
    lev (x :: xs) (x :: ys) = lev xs ys := by
  rw [lev_cons_cons, if_pos rfl]
  have h1 := lev_cons_right_le xs x ys
  have h2 := lev_cons_left_le' x xs ys
  omega

/-! ## The rolling two-row DP of countCharacterChanges -/

/-- Inner loop of the edit-distance DP: given the previous row split into its
head diag (prev at j-1) and tail (prev at j onward), and the value left just
written (curr at j-1), produce the current row entries for j = 1 onward.
Mirrors: curr at j is prev at j-1 when the characters match, otherwise
min(prev at j + 1, curr at j-1 + 1, prev at j-1 + 1). -/
def levGo (x : Char) : List Char → Nat → List Nat → Nat → List Nat
  | [], _, _, _ => []
  | _ :: _, _, [], _ => []
  | y :: ys, diag, pj :: prest, left =>
      let e := if x = y then diag else min (pj + 1) (min (left + 1) (diag + 1))
      e :: levGo x ys pj prest e

/-- Outer loop: one row per character of the first text; row i starts with
curr at 0 = i. -/
def levRows (b : List Char) : List Char → Nat → List Nat → List Nat
  | [], _, prev => prev
  | x :: xs, i, prev =>
      match prev with
      | [] => []
      | p0 :: prest => levRows b xs (i + 1) (i :: levGo x b p0 prest i)

/-- countCharacterChanges from diff.js: the length-ratio shortcut
(abs(m - n) > max(m, n) * 0.5, written exactly over naturals), the empty-side
returns, then the two-row Levenshtein DP, reading prev at n from the final
row. -/
def countCharacterChanges (oldText newText : List Char) : Nat :=
  let m := oldText.length
  let n := newText.length
  if 2 * (max m n - min m n) > max m n then max m n
  else if m = 0 then n
  else if n = 0 then m
  else (levRows newText oldText 1 (List.range (n + 1))).getD n 0

/-- The current row of the DP, as distances from A (the reversed processed
prefix of the old text) to the reversed processed prefixes of the new text:
entry j - 1 of this list is the distance from A to reverse(first j characters
beyond B). -/
def levRowFrom (A B : List Char) : List Char → List Nat
  | [] => []
  | y :: ys => lev A (y :: B) :: levRowFrom A (y :: B) ys

theorem levGo_spec (x : Char) :
    ∀ (ys B : List Char) (A : List Char),
      levGo x ys (lev A B) (levRowFrom A B ys) (lev (x :: A) B) =
        levRowFrom (x :: A) B ys := by
  intro ys
  induction ys with
  | nil => intro B A; rfl
  | cons y ys ih =>
      intro B A
      rw [levRowFrom, levRowFrom, levGo]
      have he : (if x = y then lev A B
          else min (lev A (y :: B) + 1) (min (lev (x :: A) B + 1) (lev A B + 1))) =
          lev (x :: A) (y :: B) := by
        by_cases hxy : x = y
        · subst hxy
          rw [if_pos rfl, lev_cons_cons_self]
        · rw [if_neg hxy, lev_cons_cons, if_neg hxy]
          omega
      simp only [he]
      rw [ih (y :: B) A]

theorem levRows_spec (b : List Char) :
    ∀ (xs A : List Char),
      levRows b xs (A.length + 1) (lev A [] :: levRowFrom A [] b) =
        lev (xs.reverse ++ A) [] :: levRowFrom (xs.reverse ++ A) [] b := by
  intro xs
  induction xs with
  | nil => intro A; simp [levRows]
  | cons x xs ih =>
      intro A
      rw [levRows]
      have hA : lev A [] = A.length := lev_nil_right A
      have hxA : (A.length + 1) = lev (x :: A) [] := by
        rw [lev_nil_right]; rfl
      rw [show (A.length + 1 : Nat) = lev (x :: A) [] from hxA] at *
      rw [show levGo x b (lev A []) (levRowFrom A [] b) (lev (x :: A) [])
            = levRowFrom (x :: A) [] b from levGo_spec x b [] A]
      have : lev (x :: A) [] + 1 = (x :: A).length + 1 := by rw [lev_nil_right]
      rw [this]
      rw [ih (x :: A)]
      simp

theorem levRowFrom_nil :
    ∀ (ys B : List Char),
      levRowFrom [] B ys = (List.range ys.length).map (fun j => B.length + 1 + j) := by
  intro ys
  induction ys with
  | nil => intro B; rfl
  | cons y ys ih =>
      intro B
      rw [levRowFrom, ih (y :: B), lev_nil_left]
      simp only [List.length_cons, List.range_succ_eq_map, List.map_cons, List.map_map]
      refine List.cons_eq_cons.mpr ⟨by omega, ?_⟩
      apply List.map_congr_left
      intro j _
      simp only [Function.comp_apply]
      omega

theorem levRow_init (b : List Char) :
    List.range (b.length + 1) = lev [] [] :: levRowFrom [] [] b := by
  rw [levRowFrom_nil b [], List.range_succ_eq_map]
  simp only [lev, List.length_nil]
  congr 1
  apply List.map_congr_left
  intro j _
  omega

theorem levRow_getD :
    ∀ (ys A B : List Char),
      (lev A B :: levRowFrom A B ys).getD ys.length 0 = lev A (ys.reverse ++ B) := by
  intro ys
  induction ys with
  | nil => intro A B; simp
  | cons y ys ih =>
      intro A B
      rw [levRowFrom]
      have : (y :: ys).length = ys.length + 1 := rfl
      rw [this]
      simpa using ih A (y :: B)

/-- On the DP path, countCharacterChanges computes exactly the Levenshtein
distance. -/
theorem countCharacterChanges_eq_lev (oldT newT : List Char)
    (hm : oldT ≠ []) (hn : newT ≠ [])
    (hcut : ¬ 2 * (max oldT.length newT.length - min oldT.length newT.length) >
        max oldT.length newT.length) :
    countCharacterChanges oldT newT = lev oldT newT := by
  rw [countCharacterChanges]
  simp only [if_neg hcut]
  rw [if_neg (by simpa using hm), if_neg (by simpa using hn)]
  rw [levRow_init newT]
  have h0 : (0 : Nat) + 1 = ([] : List Char).length + 1 := rfl
  have := levRows_spec newT oldT []
  simp only [List.length_nil] at this
  rw [this]
  rw [levRow_getD newT (oldT.reverse ++ []) []]
  simp only [List.append_nil]
  rw [lev_rev]

theorem countCharacterChanges_symm (a b : List Char) :
    countCharacterChanges a b = countCharacterChanges b a := by
  by_cases ha : a = []
  · subst ha
    by_cases hb : b = []
    · subst hb; rfl
    · rw [countCharacterChanges, countCharacterChanges]
      simp only [List.length_nil]
      have hb' : b.length ≠ 0 := by simpa using hb
      simp only [Nat.max_comm, Nat.min_comm]
      split
      · rfl
      · simp [hb']
  · by_cases hb : b = []
    · subst hb
      rw [countCharacterChanges, countCharacterChanges]
      simp only [List.length_nil]
      have ha' : a.length ≠ 0 := by simpa using ha
      simp only [Nat.max_comm, Nat.min_comm]
      split
      · rfl
      · simp [ha']
    · by_cases hcut : 2 * (max a.length b.length - min a.length b.length) >
          max a.length b.length
      · rw [countCharacterChanges, countCharacterChanges]
        simp only [Nat.max_comm b.length a.length, Nat.min_comm b.length a.length]
        rw [if_pos hcut, if_pos hcut]
      · rw [countCharacterChanges_eq_lev a b ha hb hcut]
        rw [countCharacterChanges_eq_lev b a hb ha (by
          rw [Nat.max_comm, Nat.min_comm]; exact hcut)]
        exact lev_symm a b

/-! ## Longest common subsequence -/

section LCS

variable {α : Type} [DecidableEq α]

/-- Reference LCS length by the textbook recurrence. -/
def lcsLen : List α → List α → Nat
  | [], _ => 0
  | _ :: _, [] => 0
  | x :: xs, y :: ys =>
      if x = y then lcsLen xs ys + 1 else max (lcsLen xs (y :: ys)) (lcsLen (x :: xs) ys)

theorem lcsLen_nil_left (b : List α) : lcsLen ([] : List α) b = 0 := by
  cases b <;> simp [lcsLen]

theorem lcsLen_nil_right (a : List α) : lcsLen a ([] : List α) = 0 := by
  cases a <;> simp [lcsLen]

/-- The recurrence value is attained by a common subsequence. -/
theorem lcsLen_exists :
    ∀ a b : List α, ∃ c, List.Sublist c a ∧ List.Sublist c b ∧ c.length = lcsLen a b := by
  intro a
  induction a with
  | nil =>
      intro b
      exact ⟨[], List.nil_sublist _, List.nil_sublist _, by rw [lcsLen_nil_left]; rfl⟩
  | cons x xs ihx =>
      intro b
      induction b with
      | nil =>
          exact ⟨[], List.nil_sublist _, List.nil_sublist _, by rw [lcsLen_nil_right]; rfl⟩
      | cons y ys ihy =>
          by_cases hxy : x = y
          · subst hxy
            obtain ⟨c, hca, hcb, hlen⟩ := ihx ys
            refine ⟨x :: c, List.Sublist.cons₂ x hca, List.Sublist.cons₂ x hcb, ?_⟩
            rw [lcsLen, if_pos rfl]
            simpa using hlen
          · rcases le_total (lcsLen xs (y :: ys)) (lcsLen (x :: xs) ys) with hle | hle
            · obtain ⟨c, hca, hcb, hlen⟩ := ihy
              refine ⟨c, hca, List.Sublist.cons y hcb, ?_⟩
              rw [lcsLen, if_neg hxy, max_eq_right hle]
              exact hlen
            · obtain ⟨c, hca, hcb, hlen⟩ := ihx (y :: ys)
              refine ⟨c, List.Sublist.cons x hca, hcb, ?_⟩
              rw [lcsLen, if_neg hxy, max_eq_left hle]
              exact hlen

/-- Every common subsequence is at most the recurrence value. -/
theorem lcsLen_ge :
    ∀ a b c : List α, List.Sublist c a → List.Sublist c b → c.length ≤ lcsLen a b := by
  intro a
  induction a with
  | nil =>
      intro b c hca hcb
      rw [List.sublist_nil.mp hca]
      simp
  | cons x xs ihx =>
      intro b
      induction b with
      | nil =>
          intro c hca hcb
          rw [List.sublist_nil.mp hcb]
          simp
      | cons y ys ihy =>
          intro c hca hcb
          cases c with
          | nil => simp
          | cons z cs =>
              by_cases hxy : x = y
              · subst hxy
                rw [lcsLen, if_pos rfl]
                by_cases hzx : z = x
                · subst hzx
                  have hca' : List.Sublist cs xs := by
                    cases hca with
                    | cons _ h => exact (List.sublist_cons_self z cs).trans h
                    | cons₂ _ h => exact h
                  have hcb' : List.Sublist cs ys := by
                    cases hcb with
                    | cons _ h => exact (List.sublist_cons_self z cs).trans h
                    | cons₂ _ h => exact h
                  have := ihx ys cs hca' hcb'
                  simpa using this
                · have hca' : List.Sublist (z :: cs) xs := by
                    cases hca with
                    | cons _ h => exact h
                    | cons₂ _ h => exact absurd rfl hzx
                  have hcb' : List.Sublist (z :: cs) ys := by
                    cases hcb with
                    | cons _ h => exact h
                    | cons₂ _ h => exact absurd rfl hzx
                  have := ihx ys (z :: cs) hca' hcb'
                  omega
              · rw [lcsLen, if_neg hxy]
                cases hca with
                | cons _ hca' =>
                    have := ihx (y :: ys) (z :: cs) hca' hcb
                    omega
                | cons₂ _ hca' =>
                    cases hcb with
                    | cons _ hcb' =>
                        have := ihy (x :: cs) (List.Sublist.cons₂ x hca') hcb'
                        omega
                    | cons₂ _ hcb' => exact absurd rfl hxy

theorem lcsLen_le_length_left (a b : List α) : lcsLen a b ≤ a.length := by
  obtain ⟨c, hca, _, hlen⟩ := lcsLen_exists a b
  rw [← hlen]
  exact hca.length_le

theorem lcsLen_le_length_right (a b : List α) : lcsLen a b ≤ b.length := by
  obtain ⟨c, _, hcb, hlen⟩ := lcsLen_exists a b
  rw [← hlen]
  exact hcb.length_le

theorem lcsLen_symm (a b : List α) : lcsLen a b = lcsLen b a := by
  refine le_antisymm ?_ ?_
  · obtain ⟨c, h1, h2, hlen⟩ := lcsLen_exists a b
    rw [← hlen]
    exact lcsLen_ge b a c h2 h1
  · obtain ⟨c, h1, h2, hlen⟩ := lcsLen_exists b a
    rw [← hlen]
    exact lcsLen_ge a b c h2 h1

theorem lcsLen_rev (a b : List α) : lcsLen a.reverse b.reverse = lcsLen a b := by
  refine le_antisymm ?_ ?_
  · obtain ⟨c, h1, h2, hlen⟩ := lcsLen_exists a.reverse b.reverse
    have h1' : List.Sublist c.reverse a := by
      have := List.reverse_sublist.mpr h1
      simpa using this
    have h2' : List.Sublist c.reverse b := by
      have := List.reverse_sublist.mpr h2
      simpa using this
    have := lcsLen_ge a b c.reverse h1' h2'
    rw [← hlen]
    simpa using this
  · obtain ⟨c, h1, h2, hlen⟩ := lcsLen_exists a b
    have := lcsLen_ge a.reverse b.reverse c.reverse
      (List.reverse_sublist.mpr h1) (List.reverse_sublist.mpr h2)
    rw [← hlen]
    simpa using this

theorem lcsLen_self (a : List α) : lcsLen a a = a.length :=
  le_antisymm (lcsLen_le_length_left a a)
    (lcsLen_ge a a a (List.Sublist.refl a) (List.Sublist.refl a))

/-- If the LCS is as long as both lists, the lists are equal. -/
theorem eq_of_lcsLen_lengths (a b : List α)
    (ha : lcsLen a b = a.length) (hb : lcsLen a b = b.length) : a = b := by
  obtain ⟨c, hca, hcb, hlen⟩ := lcsLen_exists a b
  have h1 : c = a := hca.eq_of_length (by omega)
  have h2 : c = b := hcb.eq_of_length (by omega)
  rw [← h1, h2]

/-! ### The rolling two-row DP of longestCommonSubsequenceLength -/

/-- Inner loop: curr at j is prev at j-1 + 1 on a match, otherwise
max(prev at j, curr at j-1). -/
def lcsGo (x : α) : List α → Nat → List Nat → Nat → List Nat
  | [], _, _, _ => []
  | _ :: _, _, [], _ => []
  | y :: ys, diag, pj :: prest, left =>
      let e := if x = y then diag + 1 else max pj left
      e :: lcsGo x ys pj prest e

/-- Outer loop: one row per element of the first sequence; index 0 of every
row stays 0 (it is initialised to 0 and never written). -/
def lcsRows (b : List α) : List α → List Nat → List Nat
  | [], prev => prev
  | x :: xs, prev =>
      match prev with
      | [] => []
      | p0 :: prest => lcsRows b xs (0 :: lcsGo x b p0 prest 0)

/-- longestCommonSubsequenceLength from diff.js: empty-side returns 0, then
the two-row LCS DP, reading prev at b.length from the final row. -/
def longestCommonSubsequenceLength (a b : List α) : Nat :=
  if a = [] ∨ b = [] then 0
  else (lcsRows b a (List.replicate (b.length + 1) 0)).getD b.length 0

def lcsRowFrom (A B : List α) : List α → List Nat
  | [] => []
  | y :: ys => lcsLen A (y :: B) :: lcsRowFrom A (y :: B) ys

theorem lcsGo_spec (x : α) :
    ∀ (ys B A : List α),
      lcsGo x ys (lcsLen A B) (lcsRowFrom A B ys) (lcsLen (x :: A) B) =
        lcsRowFrom (x :: A) B ys := by
  intro ys
  induction ys with
  | nil => intro B A; rfl
  | cons y ys ih =>
      intro B A
      rw [lcsRowFrom, lcsRowFrom, lcsGo]
      have he : (if x = y then lcsLen A B + 1
          else max (lcsLen A (y :: B)) (lcsLen (x :: A) B)) = lcsLen (x :: A) (y :: B) := by
        rw [lcsLen]
      simp only [he]
      rw [ih (y :: B) A]

theorem lcsRows_spec (b : List α) :
    ∀ (xs A : List α),
      lcsRows b xs (lcsLen A [] :: lcsRowFrom A [] b) =
        lcsLen (xs.reverse ++ A) [] :: lcsRowFrom (xs.reverse ++ A) [] b := by
  intro xs
  induction xs with
  | nil => intro A; simp [lcsRows]
  | cons x xs ih =>
      intro A
      rw [lcsRows]
      have h0 : lcsLen A ([] : List α) = 0 := lcsLen_nil_right A
      have h0' : lcsLen (x :: A) ([] : List α) = 0 := lcsLen_nil_right (x :: A)
      have hgo : lcsGo x b (lcsLen A []) (lcsRowFrom A [] b) 0 = lcsRowFrom (x :: A) [] b := by
        rw [show (0 : Nat) = lcsLen (x :: A) ([] : List α) from h0'.symm]
        exact lcsGo_spec x b [] A
      rw [hgo]
      rw [show (0 : Nat) = lcsLen (x :: A) ([] : List α) from h0'.symm]
      rw [ih (x :: A)]
      simp

theorem lcsRowFrom_nil (ys : List α) :
    ∀ B : List α, lcsRowFrom ([] : List α) B ys = List.replicate ys.length 0 := by
  induction ys with
  | nil => intro B; rfl
  | cons y ys ih =>
      intro B
      rw [lcsRowFrom, ih (y :: B), lcsLen_nil_left]
      rfl

theorem lcsRow_getD :
    ∀ (ys A B : List α),
      (lcsLen A B :: lcsRowFrom A B ys).getD ys.length 0 = lcsLen A (ys.reverse ++ B) := by
  intro ys
  induction ys with
  | nil => intro A B; simp
  | cons y ys ih =>
      intro A B
      rw [lcsRowFrom]
      have : (y :: ys).length = ys.length + 1 := rfl
      rw [this]
      simpa using ih A (y :: B)

/-- The two-row DP computes exactly the LCS length. -/
theorem longestCommonSubsequenceLength_eq (a b : List α) :
    longestCommonSubsequenceLength a b = lcsLen a b := by
  rw [longestCommonSubsequenceLength]
  by_cases he : a = [] ∨ b = []
  · rw [if_pos he]
    rcases he with rfl | rfl
    · rw [lcsLen_nil_left]
    · rw [lcsLen_nil_right]
  · rw [if_neg he]
    have hrep : List.replicate (b.length + 1) 0 =
        lcsLen ([] : List α) [] :: lcsRowFrom ([] : List α) [] b := by
      rw [lcsRowFrom_nil b [], lcsLen_nil_left]
      rfl
    rw [hrep]
    have := lcsRows_spec b a []
    rw [this]
    rw [lcsRow_getD b (a.reverse ++ []) []]
    simp only [List.append_nil]
    rw [lcsLen_rev]

end LCS

/-! ## countChanges -/

def headIsWs : List Char → Bool
  | [] => false
  | c :: _ => isJsWs c

/-- String.prototype.split(/\s+/): fields between maximal whitespace runs,
including the empty field before a leading run and after a trailing run. -/
def splitWs : List Char → List (List Char)
  | [] => [[]]
  | c :: cs =>
      if isJsWs c then
        if headIsWs cs then splitWs cs else [] :: splitWs cs
      else
        match splitWs cs with
        | [] => [[c]]
        | f :: fs => (c :: f) :: fs

/-- countChanges from diff.js.  The result is an exact integer: on the word
path it is (newWords.length - lcs) + (oldWords.length - lcs) with JS number
subtraction. -/
def countChanges (oldText newText : List Char) : Int :=
  if oldText = [] ∨ newText = [] then 0
  else if oldText = newText then 0
  else if oldText.length < 1000 ∨ newText.length < 1000 then
    (countCharacterChanges oldText newText : Int)
  else
    ((splitWs newText).length - (longestCommonSubsequenceLength (splitWs oldText) (splitWs newText) : Int)) +
      ((splitWs oldText).length - (longestCommonSubsequenceLength (splitWs oldText) (splitWs newText) : Int))

/-! ## Tokenizer and highlighter -/

/-- A token of the markup tokenizer: a tag, a word, or a whitespace run. -/
inductive Tok : Type where
  | tag : List Char → Tok
  | word : List Char → Tok
  | space : List Char → Tok
deriving DecidableEq

def Tok.value : Tok → List Char
  | Tok.tag v => v
  | Tok.word v => v
  | Tok.space v => v

/-- Tokenizer state after a < whose tag candidate failed at end of input: the
buffered characters (which contain no >) are re-scanned as words and spaces;
a < among them starts another candidate that likewise fails and is dropped.
State: none, or some (isWord, buffered run in reverse). -/
def simpleTokGo : Option (Bool × List Char) → List Char → List Tok
  | none, [] => []
  | some (true, buf), [] => [Tok.word buf.reverse]
  | some (false, buf), [] => [Tok.space buf.reverse]
  | none, c :: cs =>
      if c = '<' then simpleTokGo none cs
      else if isJsWs c then simpleTokGo (some (false, [c])) cs
      else simpleTokGo (some (true, [c])) cs
  | some (w, buf), c :: cs =>
      if c = '<' then
        (if w then Tok.word buf.reverse else Tok.space buf.reverse) :: simpleTokGo none cs
      else if isJsWs c then
        if w then Tok.word buf.reverse :: simpleTokGo (some (false, [c])) cs
        else simpleTokGo (some (false, c :: buf)) cs
      else
        if w then simpleTokGo (some (true, c :: buf)) cs
        else Tok.space buf.reverse :: simpleTokGo (some (true, [c])) cs

/-- Tokenizer state machine: scanning (idle), inside a word run, inside a
whitespace run, or inside a tag candidate (content = characters after the <,
in reverse). -/
inductive TkSt : Type where
  | idle : TkSt
  | inword : List Char → TkSt
  | inspace : List Char → TkSt
  | intag : List Char → TkSt

/-- The exec loop over /(<[^>]+>)|([^<\s]+)|(\s+)/g.  A tag is < then one or
more non-> characters then >; the empty candidate <> fails, its < is dropped
and > starts a word (> is a word character); a candidate open at end of input
fails, its < is dropped and its content is re-scanned by simpleTokGo.  Word
and whitespace runs are maximal. -/
def tokGo : TkSt → List Char → List Tok
  | TkSt.idle, [] => []
  | TkSt.inword buf, [] => [Tok.word buf.reverse]
  | TkSt.inspace buf, [] => [Tok.space buf.reverse]
  | TkSt.intag content, [] => simpleTokGo none content.reverse
  | TkSt.idle, c :: cs =>
      if c = '<' then tokGo (TkSt.intag []) cs
      else if isJsWs c then tokGo (TkSt.inspace [c]) cs
      else tokGo (TkSt.inword [c]) cs
  | TkSt.inword buf, c :: cs =>
      if c = '<' then Tok.word buf.reverse :: tokGo (TkSt.intag []) cs
      else if isJsWs c then Tok.word buf.reverse :: tokGo (TkSt.inspace [c]) cs
      else tokGo (TkSt.inword (c :: buf)) cs
  | TkSt.inspace buf, c :: cs =>
      if c = '<' then Tok.space buf.reverse :: tokGo (TkSt.intag []) cs
      else if isJsWs c then tokGo (TkSt.inspace (c :: buf)) cs
      else Tok.space buf.reverse :: tokGo (TkSt.inword [c]) cs
  | TkSt.intag content, c :: cs =>
      if c = '>' then
        match content with
        | [] => tokGo (TkSt.inword ['>']) cs
        | _ :: _ => Tok.tag ('<' :: content.reverse ++ ['>']) :: tokGo TkSt.idle cs
      else tokGo (TkSt.intag (c :: content)) cs

/-- tokenize from diff.js. -/
def tokenize (s : List Char) : List Tok := tokGo TkSt.idle s

def wordValue? : Tok → Option (List Char)
  | Tok.word v => some v
  | _ => none

/-- The word-token values of a token sequence, in order. -/
def wordValues (toks : List Tok) : List (List Char) := toks.filterMap wordValue?

/-- computeDiff from diff.js: mark each new token added iff it is a word whose
value does not occur among the old word values (Set membership is string
equality); tags and whitespace are always unchanged. -/
def markTokens (oldVals : List (List Char)) (newToks : List Tok) : List (Tok × Bool) :=
  newToks.map fun t =>
    match t with
    | Tok.word v => (t, decide (¬ v ∈ oldVals))
    | _ => (t, false)

def openSpan (color : List Char) : List Char :=
  toL "<span style=\"background-color: " ++ color ++ toL ";\">"

def closeSpan : List Char := toL "</span>"

/-- buildHighlightedHtml from diff.js: serialize the diff, opening a wrapper
before an added word when none is open, and closing it before whitespace,
tags, and unchanged words, and at the end. -/
def buildGo (color : List Char) : List (Tok × Bool) → Bool → List Char
  | [], inH => if inH then closeSpan else []
  | (t, st) :: rest, inH =>
      match t, st with
      | Tok.word v, true =>
          (if inH then [] else openSpan color) ++ v ++ buildGo color rest true
      | Tok.space v, _ =>
          (if inH then closeSpan else []) ++ v ++ buildGo color rest false
      | Tok.tag v, _ =>
          (if inH then closeSpan else []) ++ v ++ buildGo color rest false
      | Tok.word v, false =>
          (if inH then closeSpan else []) ++ v ++ buildGo color rest false

def buildHighlightedHtml (diff : List (Tok × Bool)) (color : List Char) : List Char :=
  buildGo color diff false

/-- highlightChanges from diff.js. -/
def highlightChanges (oldHtml newHtml color : List Char) : List Char :=
  if oldHtml = [] then newHtml
  else if newHtml = [] then []
  else if oldHtml = newHtml then newHtml
  else
    buildHighlightedHtml
      (markTokens (wordValues (tokenize oldHtml)) (tokenize newHtml)) color

/-! ## detectChange (scanner) -/

/-- detectChange from the scanner: no previous snapshot or identical markup
means no change; a threshold of at most 1 reports exactly extracted-text
inequality; otherwise the change count is compared with the threshold. -/
def detectChange (oldHtml newHtml : List Char) (threshold : Int) : Bool :=
  if oldHtml = [] then false
  else if oldHtml = newHtml then false
  else if extractText oldHtml = extractText newHtml then false
  else if threshold ≤ 1 then decide (extractText oldHtml ≠ extractText newHtml)
  else decide (countChanges (extractText oldHtml) (extractText newHtml) ≥ threshold)

/-! ## Span discipline of the serializer

The serializer's output is abstracted as a sequence of items: wrapper opens,
wrapper closes, and token emissions.  buildItems mirrors buildGo exactly, and
renderItems maps the items back to the emitted characters, so that
buildGo = renderItems after buildItems holds definitionally case by case. -/

inductive HItem : Type where
  | openW : HItem
  | closeW : HItem
  | emit : Tok → Bool → HItem
deriving DecidableEq

def buildItems : List (Tok × Bool) → Bool → List HItem
  | [], inH => if inH then [HItem.closeW] else []
  | (t, st) :: rest, inH =>
      match t, st with
      | Tok.word v, true =>
          (if inH then [] else [HItem.openW]) ++ HItem.emit (Tok.word v) true :: buildItems rest true
      | Tok.space v, b =>
          (if inH then [HItem.closeW] else []) ++ HItem.emit (Tok.space v) b :: buildItems rest false
      | Tok.tag v, b =>
          (if inH then [HItem.closeW] else []) ++ HItem.emit (Tok.tag v) b :: buildItems rest false
      | Tok.word v, false =>
          (if inH then [HItem.closeW] else []) ++ HItem.emit (Tok.word v) false :: buildItems rest false

def renderItems (color : List Char) : List HItem → List Char
  | [] => []
  | HItem.openW :: r => openSpan color ++ renderItems color r
  | HItem.closeW :: r => closeSpan ++ renderItems color r
  | HItem.emit t _ :: r => t.value ++ renderItems color r

/-- Well-formedness of an item sequence, tracking whether a wrapper is open:
wrappers alternate open/close, a sequence ends with every wrapper closed, and
while a wrapper is open the only emissions are added word tokens - so no
whitespace token, tag token, or unchanged word ever stands inside a wrapper. -/
def spansOk : Bool → List HItem → Bool
  | false, [] => true
  | true, [] => false
  | false, HItem.openW :: r => spansOk true r
  | false, HItem.closeW :: _ => false
  | false, HItem.emit _ _ :: r => spansOk false r
  | true, HItem.openW :: _ => false
  | true, HItem.closeW :: r => spansOk false r
  | true, HItem.emit t b :: r =>
      (match t with
       | Tok.word _ => b
       | _ => false) && spansOk true r

def isEmit : HItem → Bool
  | HItem.emit _ _ => true
  | _ => false

def emitsOf (items : List HItem) : List Tok :=
  items.filterMap fun i =>
    match i with
    | HItem.emit t _ => some t
    | _ => none

def concatTokens : List Tok → List Char
  | [] => []
  | t :: ts => t.value ++ concatTokens ts

theorem buildGo_eq_renderItems (color : List Char) :
    ∀ (diff : List (Tok × Bool)) (inH : Bool),
      buildGo color diff inH = renderItems color (buildItems diff inH) := by
  intro diff
  induction diff with
  | nil =>
      intro inH
      cases inH <;> rfl
  | cons p rest ih =>
      intro inH
      obtain ⟨t, st⟩ := p
      cases t with
      | tag v => cases inH <;> simp [buildGo, buildItems, renderItems, Tok.value, ih]
      | word v => cases st <;> cases inH <;> simp [buildGo, buildItems, renderItems, Tok.value, ih]
      | space v => cases inH <;> simp [buildGo, buildItems, renderItems, Tok.value, ih]

theorem spansOk_buildItems :
    ∀ (diff : List (Tok × Bool)) (inH : Bool), spansOk inH (buildItems diff inH) = true := by
  intro diff
  induction diff with
  | nil =>
      intro inH
      cases inH <;> rfl
  | cons p rest ih =>
      intro inH
      obtain ⟨t, st⟩ := p
      cases t with
      | tag v => cases inH <;> simp [buildItems, spansOk, ih]
      | word v => cases st <;> cases inH <;> simp [buildItems, spansOk, ih]
      | space v => cases inH <;> simp [buildItems, spansOk, ih]

theorem emitsOf_buildItems :
    ∀ (diff : List (Tok × Bool)) (inH : Bool),
      emitsOf (buildItems diff inH) = diff.map Prod.fst := by
  intro diff
  induction diff with
  | nil =>
      intro inH
      cases inH <;> rfl
  | cons p rest ih =>
      intro inH
      obtain ⟨t, st⟩ := p
      have ihF := ih false
      have ihT := ih true
      rw [emitsOf] at ihF ihT ⊢
      cases t with
      | tag v => cases inH <;> simp [buildItems, List.filterMap, ihF]
      | word v => cases st <;> cases inH <;> simp [buildItems, List.filterMap, ihF, ihT]
      | space v => cases inH <;> simp [buildItems, List.filterMap, ihF]

theorem filter_isEmit_buildItems :
    ∀ (diff : List (Tok × Bool)) (inH : Bool),
      (buildItems diff inH).filter isEmit = diff.map fun p => HItem.emit p.1 p.2 := by
  intro diff
  induction diff with
  | nil =>
      intro inH
      cases inH <;> rfl
  | cons p rest ih =>
      intro inH
      obtain ⟨t, st⟩ := p
      cases t with
      | tag v => cases inH <;> simp [buildItems, List.filter, isEmit, ih false]
      | word v => cases st <;> cases inH <;>
          simp [buildItems, List.filter, isEmit, ih true, ih false]
      | space v => cases inH <;> simp [buildItems, List.filter, isEmit, ih false]

theorem renderItems_emits (color : List Char) :
    ∀ l : List (Tok × Bool),
      renderItems color (l.map fun p => HItem.emit p.1 p.2) = concatTokens (l.map Prod.fst) := by
  intro l
  induction l with
  | nil => rfl
  | cons p rest ih => simp [renderItems, concatTokens, ih]

theorem buildItems_all_unchanged :
    ∀ diff : List (Tok × Bool), (∀ p ∈ diff, p.2 = false) →
      buildItems diff false = diff.map fun p => HItem.emit p.1 p.2 := by
  intro diff
  induction diff with
  | nil => intro _; rfl
  | cons p rest ih =>
      intro h
      obtain ⟨t, st⟩ := p
      have hst : st = false := h (t, st) (by simp)
      subst hst
      have hrest := ih fun q hq => h q (by simp [hq])
      cases t <;> simp [buildItems, hrest]

theorem markTokens_fst (oldVals : List (List Char)) (newToks : List Tok) :
    (markTokens oldVals newToks).map Prod.fst = newToks := by
  rw [markTokens, List.map_map]
  have : ∀ t : Tok, (Prod.fst ∘ fun t : Tok =>
      match t with
      | Tok.word v => (t, decide (¬ v ∈ oldVals))
      | _ => (t, false)) t = t := by
    intro t
    cases t <;> rfl
  rw [List.map_congr_left fun t _ => this t]
  exact List.map_id newToks

theorem markTokens_all_unchanged (oldVals : List (List Char)) (newToks : List Tok)
    (h : ∀ v ∈ wordValues newToks, v ∈ oldVals) :
    ∀ p ∈ markTokens oldVals newToks, p.2 = false := by
  induction newToks with
  | nil => intro p hp; simp [markTokens] at hp
  | cons t rest ih =>
      intro p hp
      rw [markTokens, List.map_cons] at hp
      rcases List.mem_cons.mp hp with hp | hp
      · cases t with
        | word v =>
            have hv : v ∈ oldVals := h v (by simp [wordValues, wordValue?])
            simp [hp, hv]
        | tag v => simp [hp]
        | space v => simp [hp]
      · refine ih (fun v hv => h v ?_) p hp
        cases t <;> simp [wordValues, wordValue?] at hv ⊢ <;> simp [hv]

/-! ## Fixed points of the extraction pipeline

Support for the idempotence analysis: each stage of extractText leaves a
string unchanged when the features it rewrites are absent, and the whitespace
of an extracted text is already in normal form. -/

theorem toUpper_eq_lt {c : Char} (h : c.toUpper = '<') : c = '<' := by
  rw [Char.toUpper] at h
  split at h
  · rename_i hr
    obtain ⟨h1, h2⟩ := hr
    set k := c.toNat with hk
    interval_cases k <;> exact absurd h (by decide)
  · exact h

theorem ciEq_lt_false {c : Char} (h : c ≠ '<') : ciEq '<' c = false := by
  rw [ciEq]
  have : c.toUpper ≠ '<' := fun he => h (toUpper_eq_lt he)
  have h2 : ('<' : Char).toUpper = '<' := by decide
  rw [h2]
  simp only [beq_eq_false_iff_ne]
  exact this.symm

theorem stripBlocksGo_id (ps cloRev : List Char) :
    ∀ t : List Char, (∀ c ∈ t, c ≠ '<') →
      stripBlocksGo ('<' :: ps) cloRev none t = t := by
  intro t
  induction t with
  | nil => intro _; rfl
  | cons c cs ih =>
      intro h
      rw [stripBlocksGo]
      have hc : ciEq '<' c = false := ciEq_lt_false (h c (by simp))
      rw [startsWithCI, hc]
      simp only [Bool.false_and, if_false, Bool.false_eq_true]
      rw [ih fun d hd => h d (List.mem_cons_of_mem c hd)]

theorem removeScripts_id (t : List Char) (h : ∀ c ∈ t, c ≠ '<') :
    removeScripts t = t := by
  rw [removeScripts]
  have : toL "<script" = '<' :: toL "script" := rfl
  rw [this]
  exact stripBlocksGo_id _ _ t h

theorem removeStyles_id (t : List Char) (h : ∀ c ∈ t, c ≠ '<') :
    removeStyles t = t := by
  rw [removeStyles]
  have : toL "<style" = '<' :: toL "style" := rfl
  rw [this]
  exact stripBlocksGo_id _ _ t h

theorem stripTagsGo_id : ∀ t : List Char, (∀ c ∈ t, c ≠ '<') →
    stripTagsGo none t = t := by
  intro t
  induction t with
  | nil => intro _; rfl
  | cons c cs ih =>
      intro h
      rw [stripTagsGo, if_neg (h c (by simp))]
      rw [ih fun d hd => h d (List.mem_cons_of_mem c hd)]

theorem decNbsp_id : ∀ t : List Char, (∀ c ∈ t, c ≠ '&') → decNbsp t = t := by
  intro t
  induction t using decNbsp.induct with
  | case1 rest ih => exact fun h => absurd rfl (h '&' (by simp))
  | case2 c cs hnm ih =>
      intro h
      rw [decNbsp]
      rw [ih fun d hd => h d (List.mem_cons_of_mem c hd)]
      exact hnm
  | case3 => intro _; rfl

theorem decAmp_id : ∀ t : List Char, (∀ c ∈ t, c ≠ '&') → decAmp t = t := by
  intro t
  induction t using decAmp.induct with
  | case1 rest ih => exact fun h => absurd rfl (h '&' (by simp))
  | case2 c cs hnm ih =>
      intro h
      rw [decAmp]
      rw [ih fun d hd => h d (List.mem_cons_of_mem c hd)]
      exact hnm
  | case3 => intro _; rfl

theorem decLt_id : ∀ t : List Char, (∀ c ∈ t, c ≠ '&') → decLt t = t := by
  intro t
  induction t using decLt.induct with
  | case1 rest ih => exact fun h => absurd rfl (h '&' (by simp))
  | case2 c cs hnm ih =>
      intro h
      rw [decLt]
      rw [ih fun d hd => h d (List.mem_cons_of_mem c hd)]
      exact hnm
  | case3 => intro _; rfl

theorem decGt_id : ∀ t : List Char, (∀ c ∈ t, c ≠ '&') → decGt t = t := by
  intro t
  induction t using decGt.induct with
  | case1 rest ih => exact fun h => absurd rfl (h '&' (by simp))
  | case2 c cs hnm ih =>
      intro h
      rw [decGt]
      rw [ih fun d hd => h d (List.mem_cons_of_mem c hd)]
      exact hnm
  | case3 => intro _; rfl

theorem decQuot_id : ∀ t : List Char, (∀ c ∈ t, c ≠ '&') → decQuot t = t := by
  intro t
  induction t using decQuot.induct with
  | case1 rest ih => exact fun h => absurd rfl (h '&' (by simp))
  | case2 c cs hnm ih =>
      intro h
      rw [decQuot]
      rw [ih fun d hd => h d (List.mem_cons_of_mem c hd)]
      exact hnm
  | case3 => intro _; rfl

/-- Whitespace normal form: every whitespace character is a single space not
followed by whitespace. -/
def wsGood : List Char → Bool
  | [] => true
  | c :: cs => (!isJsWs c || (c == ' ' && !headIsWs cs)) && wsGood cs

theorem head_collapseGo_true : ∀ u : List Char, headIsWs (collapseGo true u) = false := by
  intro u
  induction u with
  | nil => rfl
  | cons c cs ih =>
      rw [collapseGo]
      by_cases hc : isJsWs c
      · simp only [hc, if_true, if_pos rfl]
        exact ih
      · simp only [hc, Bool.false_eq_true, if_false]
        simpa [headIsWs] using hc

theorem wsGood_collapseGo : ∀ (u : List Char) (b : Bool), wsGood (collapseGo b u) = true := by
  intro u
  induction u with
  | nil => intro b; rfl
  | cons c cs ih =>
      intro b
      rw [collapseGo]
      by_cases hc : isJsWs c
      · simp only [hc, if_true]
        cases b with
        | true => simpa using ih true
        | false =>
            simp only [Bool.false_eq_true, if_false, wsGood]
            rw [head_collapseGo_true cs]
            simpa using ih true
      · simp only [hc, Bool.false_eq_true, if_false, wsGood]
        rw [ih false]
        simp [hc]

theorem collapseGo_fix : ∀ t : List Char, wsGood t = true →
    (collapseGo false t = t ∧ (headIsWs t = false → collapseGo true t = t)) := by
  intro t
  induction t with
  | nil => intro _; exact ⟨rfl, fun _ => rfl⟩
  | cons c cs ih =>
      intro h
      rw [wsGood, Bool.and_eq_true] at h
      obtain ⟨h1, h2⟩ := h
      obtain ⟨ih1, ih2⟩ := ih h2
      by_cases hc : isJsWs c
      · have hsp : c = ' ' ∧ headIsWs cs = false := by
          simp [hc] at h1
          exact ⟨h1.1, by simpa using h1.2⟩
        constructor
        · rw [collapseGo]
          simp only [hc, if_true, Bool.false_eq_true, if_false]
          rw [ih2 hsp.2, hsp.1]
        · intro habs
          rw [headIsWs, hc] at habs
          cases habs
      · constructor
        · rw [collapseGo]
          simp only [hc, Bool.false_eq_true, if_false]
          rw [ih1]
        · intro _
          rw [collapseGo]
          simp only [hc, Bool.false_eq_true, if_false]
          rw [ih1]

theorem wsGood_tail {c : Char} {cs : List Char} (h : wsGood (c :: cs) = true) :
    wsGood cs = true := by
  rw [wsGood, Bool.and_eq_true] at h
  exact h.2

theorem wsGood_dropWhile (p : Char → Bool) :
    ∀ t : List Char, wsGood t = true → wsGood (t.dropWhile p) = true := by
  intro t
  induction t with
  | nil => intro _; exact rfl
  | cons c cs ih =>
      intro h
      rw [List.dropWhile]
      by_cases hp : p c
      · rw [hp]
        exact ih (wsGood_tail h)
      · simp only [hp, Bool.false_eq_true, if_false]
        exact h

theorem wsGood_append_left :
    ∀ l₁ l₂ : List Char, wsGood (l₁ ++ l₂) = true → wsGood l₁ = true := by
  intro l₁
  induction l₁ with
  | nil => intro _ _; rfl
  | cons c cs ih =>
      intro l₂ h
      rw [List.cons_append, wsGood, Bool.and_eq_true] at h
      obtain ⟨h1, h2⟩ := h
      rw [wsGood, Bool.and_eq_true]
      refine ⟨?_, ih l₂ h2⟩
      by_cases hc : isJsWs c
      · simp only [hc, Bool.not_true, Bool.false_or, Bool.and_eq_true, beq_iff_eq,
          Bool.not_eq_eq_eq_not, Bool.not_true] at h1 ⊢
        obtain ⟨hsp, hnw⟩ := h1
        refine ⟨hsp, ?_⟩
        cases cs with
        | nil => rfl
        | cons d ds => simpa [headIsWs] using hnw
      · simp [hc]

theorem trimRight_prefix (l : List Char) : ∃ r, l = trimRight l ++ r := by
  refine ⟨(l.reverse.takeWhile isJsWs).reverse, ?_⟩
  rw [trimRight]
  have := List.takeWhile_append_dropWhile (p := isJsWs) (l := l.reverse)
  calc l = l.reverse.reverse := (List.reverse_reverse l).symm
    _ = (l.reverse.takeWhile isJsWs ++ l.reverse.dropWhile isJsWs).reverse := by rw [this]
    _ = (l.reverse.dropWhile isJsWs).reverse ++ (l.reverse.takeWhile isJsWs).reverse := by
        rw [List.reverse_append]

theorem headIsWs_trimLeft (s : List Char) : headIsWs (trimLeft s) = false := by
  rw [trimLeft]
  induction s with
  | nil => rfl
  | cons c cs ih =>
      rw [List.dropWhile]
      by_cases hc : isJsWs c
      · rw [hc]; exact ih
      · simp [hc, headIsWs]

theorem headIsWs_trimRight {l : List Char} (h : headIsWs l = false) :
    headIsWs (trimRight l) = false := by
  obtain ⟨r, hr⟩ := trimRight_prefix l
  cases htr : trimRight l with
  | nil => rfl
  | cons c cs =>
      rw [htr] at hr
      rw [hr] at h
      simpa [headIsWs] using h

theorem trimRight_idem (l : List Char) : trimRight (trimRight l) = trimRight l := by
  rw [trimRight, trimRight, List.reverse_reverse, List.dropWhile_idempotent]

theorem trimLeft_eq_self {t : List Char} (h : headIsWs t = false) : trimLeft t = t := by
  cases t with
  | nil => rfl
  | cons c cs =>
      rw [trimLeft, List.dropWhile]
      rw [headIsWs] at h
      simp [h]

theorem trimWs_idem (v : List Char) : trimWs (trimWs v) = trimWs v := by
  rw [trimWs, trimWs]
  have h1 : headIsWs (trimRight (trimLeft v)) = false :=
    headIsWs_trimRight (headIsWs_trimLeft v)
  rw [trimLeft_eq_self h1]
  exact trimRight_idem _

theorem wsGood_trimWs {v : List Char} (h : wsGood v = true) : wsGood (trimWs v) = true := by
  rw [trimWs]
  have h1 : wsGood (trimLeft v) = true := wsGood_dropWhile isJsWs v h
  obtain ⟨r, hr⟩ := trimRight_prefix (trimLeft v)
  exact wsGood_append_left _ r (by rw [← hr]; exact h1)

/-- The whitespace of an extracted text is already collapsed and trimmed, so
the last two pipeline stages leave it unchanged. -/
theorem trimWs_collapseGo_fix (u : List Char) :
    trimWs (collapseGo false (trimWs (collapseGo false u))) = trimWs (collapseGo false u) := by
  have hg : wsGood (trimWs (collapseGo false u)) = true :=
    wsGood_trimWs (wsGood_collapseGo u false)
  rw [(collapseGo_fix _ hg).1]
  exact trimWs_idem _

/-! ## Claims -/

theorem countChanges_self (t : List Char) : countChanges t t = 0 := by
  rw [countChanges]
  by_cases h : t = []
  · simp [h]
  · simp [h]

/-- C7: countChanges returns 0 whenever either input is empty, including the
asymmetric single-sided cases, and on the three concrete pairs of the spec. -/
theorem claim7_empty_policy :
    (∀ A : List Char, countChanges A [] = 0 ∧ countChanges [] A = 0) ∧
    countChanges [] [] = 0 ∧ countChanges [] (toL "Hello") = 0 ∧
    countChanges (toL "Hello") [] = 0 := by
  refine ⟨fun A => ⟨?_, ?_⟩, by decide, by decide, by decide⟩
  · rw [countChanges, if_pos (Or.inr rfl)]
  · rw [countChanges, if_pos (Or.inl rfl)]

/-- C8: highlightChanges returns the new markup when the old is empty, the
empty string when the new is empty, and the markup itself when both are
identical. -/
theorem claim8_highlight_guards :
    (∀ B color : List Char, highlightChanges [] B color = B) ∧
    (∀ A color : List Char, highlightChanges A [] color = []) ∧
    (∀ A color : List Char, highlightChanges A A color = A) := by
  refine ⟨fun B color => rfl, fun A color => ?_, fun A color => ?_⟩
  · rw [highlightChanges]
    by_cases hA : A = [] <;> simp [hA]
  · rw [highlightChanges]
    by_cases hA : A = [] <;> simp [hA]

/-- C3: countChanges is symmetric: the guards, the algorithm selection, the
length-ratio shortcut, the character DP and the word-level LCS path all give
the same value with the arguments swapped. -/
theorem claim3_countChanges_symm (A B : List Char) :
    countChanges A B = countChanges B A := by
  rw [countChanges, countChanges]
  by_cases h1 : A = [] ∨ B = []
  · rw [if_pos h1, if_pos (Or.symm h1)]
  · rw [if_neg h1, if_neg fun h => h1 (Or.symm h)]
    by_cases h2 : A = B
    · rw [if_pos h2, if_pos (Eq.symm h2)]
    · rw [if_neg h2, if_neg fun h => h2 (Eq.symm h)]
      by_cases h3 : A.length < 1000 ∨ B.length < 1000
      · rw [if_pos h3, if_pos (Or.symm h3), countCharacterChanges_symm]
      · rw [if_neg h3, if_neg fun h => h3 (Or.symm h)]
        have hL : longestCommonSubsequenceLength (splitWs B) (splitWs A) =
            longestCommonSubsequenceLength (splitWs A) (splitWs B) := by
          rw [longestCommonSubsequenceLength_eq, longestCommonSubsequenceLength_eq,
            lcsLen_symm]
        rw [hL]
        ring

/-- C9: with a previous snapshot present, a threshold of at most 1 detects a
change exactly when the extracted texts differ, and a threshold above 1
detects a change exactly when the change count reaches the threshold. -/
theorem claim9_detectChange (oldH newH : List Char) (thr : Int) (hold : oldH ≠ []) :
    (thr ≤ 1 → (detectChange oldH newH thr = true ↔
        extractText oldH ≠ extractText newH)) ∧
    (1 < thr → (detectChange oldH newH thr = true ↔
        thr ≤ countChanges (extractText oldH) (extractText newH))) := by
  constructor
  · intro hthr
    rw [detectChange, if_neg hold]
    by_cases heq : oldH = newH
    · subst heq
      simp
    · rw [if_neg heq]
      by_cases htxt : extractText oldH = extractText newH
      · simp [htxt]
      · rw [if_neg htxt, if_pos hthr]
        simp [htxt]
  · intro hthr
    rw [detectChange, if_neg hold]
    by_cases heq : oldH = newH
    · subst heq
      rw [if_pos rfl]
      rw [countChanges_self]
      simp
      omega
    · rw [if_neg heq]
      by_cases htxt : extractText oldH = extractText newH
      · rw [if_pos htxt, htxt, countChanges_self]
        simp
        omega
      · rw [if_neg htxt, if_neg (by omega : ¬ thr ≤ 1)]
        simp [ge_iff_le]

/-- C9 witness at a concrete tracked pair. -/
theorem claim9_witness :
    ((1 : Int) ≤ 1 → (detectChange (toL "<p>a</p>") (toL "<p>b</p>") 1 = true ↔
        extractText (toL "<p>a</p>") ≠ extractText (toL "<p>b</p>"))) ∧
    ((1 : Int) < 1 → (detectChange (toL "<p>a</p>") (toL "<p>b</p>") 1 = true ↔
        (1 : Int) ≤ countChanges (extractText (toL "<p>a</p>"))
          (extractText (toL "<p>b</p>")))) :=
  ⟨fun h => ((claim9_detectChange (toL "<p>a</p>") (toL "<p>b</p>") 1 (by decide)).1 h),
   fun h => ((claim9_detectChange (toL "<p>a</p>") (toL "<p>b</p>") 1 (by decide)).2 h)⟩

/-- C2: on the diffing path the serializer's output renders an item sequence
whose wrappers are well-formed: wrappers enclose only consecutive added word
tokens, close before any whitespace token, tag token, or unchanged word, and
close at the end of the sequence, so none is left open and none contains a
tag or whitespace token. -/
theorem claim2_span_discipline (oldH newH color : List Char)
    (h1 : oldH ≠ []) (h2 : newH ≠ []) (h3 : oldH ≠ newH) :
    highlightChanges oldH newH color =
      renderItems color
        (buildItems (markTokens (wordValues (tokenize oldH)) (tokenize newH)) false) ∧
    spansOk false
      (buildItems (markTokens (wordValues (tokenize oldH)) (tokenize newH)) false) = true := by
  constructor
  · rw [highlightChanges, if_neg h1, if_neg h2, if_neg h3, buildHighlightedHtml]
    exact buildGo_eq_renderItems color _ false
  · exact spansOk_buildItems _ false

/-- C2 witness at a concrete pair of markups. -/
theorem claim2_witness :
    highlightChanges (toL "<p>a</p>") (toL "<p>a b</p>") (toL "#ffff66") =
      renderItems (toL "#ffff66")
        (buildItems (markTokens (wordValues (tokenize (toL "<p>a</p>")))
          (tokenize (toL "<p>a b</p>"))) false) ∧
    spansOk false
      (buildItems (markTokens (wordValues (tokenize (toL "<p>a</p>")))
        (tokenize (toL "<p>a b</p>"))) false) = true :=
  claim2_span_discipline (toL "<p>a</p>") (toL "<p>a b</p>") (toL "#ffff66")
    (by decide) (by decide) (by decide)

/-- C10: the serializer emits exactly the new markup's tokens in order; with
the wrapper items deleted the rendering is the concatenation of the new
token values; and when every new word value already occurs among the old
word values the output is that concatenation with no wrapper at all. -/
theorem claim10_frame (oldH newH color : List Char)
    (h1 : oldH ≠ []) (h2 : newH ≠ []) (h3 : oldH ≠ newH) :
    emitsOf (buildItems (markTokens (wordValues (tokenize oldH)) (tokenize newH)) false) =
      tokenize newH ∧
    renderItems color
        ((buildItems (markTokens (wordValues (tokenize oldH)) (tokenize newH)) false).filter
          isEmit) =
      concatTokens (tokenize newH) ∧
    ((∀ v ∈ wordValues (tokenize newH), v ∈ wordValues (tokenize oldH)) →
      highlightChanges oldH newH color = concatTokens (tokenize newH)) := by
  refine ⟨?_, ?_, ?_⟩
  · rw [emitsOf_buildItems, markTokens_fst]
  · rw [filter_isEmit_buildItems, renderItems_emits, markTokens_fst]
  · intro hall
    rw [highlightChanges, if_neg h1, if_neg h2, if_neg h3, buildHighlightedHtml]
    rw [buildGo_eq_renderItems]
    rw [buildItems_all_unchanged _ (markTokens_all_unchanged _ _ hall)]
    rw [renderItems_emits, markTokens_fst]

/-- C10 witness at a concrete pair of markups (a permutation of the same
words, so the no-wrapper consequence also fires). -/
theorem claim10_witness :
    emitsOf (buildItems (markTokens (wordValues (tokenize (toL "<p>a b</p>")))
        (tokenize (toL "<p>b a</p>"))) false) = tokenize (toL "<p>b a</p>") ∧
    highlightChanges (toL "<p>a b</p>") (toL "<p>b a</p>") (toL "#ffff66") =
      concatTokens (tokenize (toL "<p>b a</p>")) :=
  ⟨(claim10_frame (toL "<p>a b</p>") (toL "<p>b a</p>") (toL "#ffff66")
      (by decide) (by decide) (by decide)).1,
   (claim10_frame (toL "<p>a b</p>") (toL "<p>b a</p>") (toL "#ffff66")
      (by decide) (by decide) (by decide)).2.2 (by decide)⟩

/-- C1 counterexample: the claimed equivalence fails at an explicit input,
since an empty side forces the result 0 even though the texts differ. -/
theorem claim1_counterexample :
    countChanges [] (toL "Hello") = 0 ∧ ([] : List Char) ≠ toL "Hello" := by
  constructor
  · rw [countChanges, if_pos (Or.inl rfl)]
  · decide

/-- C1 (amended): countChanges is zero exactly when the texts are equal, or
one of them is empty, or both are at least 1000 characters long and their
whitespace-split word sequences coincide (texts differing only in whitespace
layout). -/
theorem claim1_amended (A B : List Char) :
    countChanges A B = 0 ↔
      A = B ∨ A = [] ∨ B = [] ∨
        (1000 ≤ A.length ∧ 1000 ≤ B.length ∧ splitWs A = splitWs B) := by
  rw [countChanges]
  by_cases h1 : A = [] ∨ B = []
  · rw [if_pos h1]
    simp only [eq_self_iff_true, true_iff]
    rcases h1 with h | h
    · exact Or.inr (Or.inl h)
    · exact Or.inr (Or.inr (Or.inl h))
  · rw [if_neg h1]
    push_neg at h1
    obtain ⟨hA, hB⟩ := h1
    by_cases h2 : A = B
    · rw [if_pos h2]
      simp [h2]
    · rw [if_neg h2]
      by_cases h3 : A.length < 1000 ∨ B.length < 1000
      · rw [if_pos h3]
        constructor
        · intro h0
          exfalso
          have h0' : countCharacterChanges A B = 0 := by exact_mod_cast h0
          by_cases hcut : 2 * (max A.length B.length - min A.length B.length) >
              max A.length B.length
          · rw [countCharacterChanges] at h0'
            simp only [if_pos hcut] at h0'
            have hA' : A.length ≠ 0 := by simpa using hA
            have hB' : B.length ≠ 0 := by simpa using hB
            omega
          · rw [countCharacterChanges_eq_lev A B hA hB hcut] at h0'
            exact h2 ((lev_eq_zero_iff A B).mp h0')
        · intro hr
          exfalso
          rcases hr with h | h | h | ⟨hga, hgb, _⟩
          · exact h2 h
          · exact hA h
          · exact hB h
          · omega
      · rw [if_neg h3]
        push_neg at h3
        obtain ⟨hga, hgb⟩ := h3
        rw [longestCommonSubsequenceLength_eq]
        have hle1 := lcsLen_le_length_left (splitWs A) (splitWs B)
        have hle2 := lcsLen_le_length_right (splitWs A) (splitWs B)
        constructor
        · intro h0
          have hA' : lcsLen (splitWs A) (splitWs B) = (splitWs A).length := by omega
          have hB' : lcsLen (splitWs A) (splitWs B) = (splitWs B).length := by omega
          exact Or.inr (Or.inr (Or.inr ⟨hga, hgb,
            eq_of_lcsLen_lengths _ _ hA' hB'⟩))
        · intro hr
          rcases hr with h | h | h | ⟨_, _, hsplit⟩
          · exact absurd h h2
          · exact absurd h hA
          · exact absurd h hB
          · rw [hsplit, lcsLen_self]
            have : (splitWs A).length = (splitWs B).length := by rw [hsplit]
            omega

/-- C5: on the character-level path (either text shorter than 1000), the
length-ratio shortcut returns the larger length, and otherwise the two-row DP
returns exactly the minimum number of single-character insert, delete and
substitute operations turning the old text into the new one (Transforms is
the alignment relation generated by those operations). -/
theorem claim5_char_path (oldT newT : List Char)
    (h1 : oldT ≠ []) (h2 : newT ≠ []) (h3 : oldT ≠ newT)
    (h4 : oldT.length < 1000 ∨ newT.length < 1000) :
    (2 * (max oldT.length newT.length - min oldT.length newT.length) >
        max oldT.length newT.length →
      countChanges oldT newT = (max oldT.length newT.length : Int)) ∧
    (¬ 2 * (max oldT.length newT.length - min oldT.length newT.length) >
        max oldT.length newT.length →
      countChanges oldT newT = (countCharacterChanges oldT newT : Int) ∧
      Transforms oldT newT (countCharacterChanges oldT newT) ∧
      (∀ k, Transforms oldT newT k → countCharacterChanges oldT newT ≤ k)) := by
  have hcc : countChanges oldT newT = (countCharacterChanges oldT newT : Int) := by
    rw [countChanges, if_neg (by tauto), if_neg h3, if_pos h4]
  constructor
  · intro hcut
    rw [hcc]
    have : countCharacterChanges oldT newT = max oldT.length newT.length := by
      rw [countCharacterChanges]
      simp only [if_pos hcut]
    rw [this]
    push_cast
    rfl
  · intro hcut
    have hlev := countCharacterChanges_eq_lev oldT newT h1 h2 hcut
    exact ⟨hcc, hlev ▸ transforms_lev oldT newT,
      fun k hk => hlev ▸ lev_le_of_transforms hk⟩

/-- C5 witness at a concrete short unequal pair (DP branch). -/
theorem claim5_witness :
    (2 * (max (toL "abc").length (toL "abd").length -
        min (toL "abc").length (toL "abd").length) >
          max (toL "abc").length (toL "abd").length →
      countChanges (toL "abc") (toL "abd") =
        (max (toL "abc").length (toL "abd").length : Int)) ∧
    (¬ 2 * (max (toL "abc").length (toL "abd").length -
        min (toL "abc").length (toL "abd").length) >
          max (toL "abc").length (toL "abd").length →
      countChanges (toL "abc") (toL "abd") =
        (countCharacterChanges (toL "abc") (toL "abd") : Int) ∧
      Transforms (toL "abc") (toL "abd") (countCharacterChanges (toL "abc") (toL "abd")) ∧
      (∀ k, Transforms (toL "abc") (toL "abd") k →
        countCharacterChanges (toL "abc") (toL "abd") ≤ k)) :=
  claim5_char_path (toL "abc") (toL "abd") (by decide) (by decide) (by decide)
    (by decide)

/-- C6: on the word-level path (both texts at least 1000 characters), the
result is (newWords - lcs) + (oldWords - lcs) over the whitespace-split word
sequences, where lcs is the length of their longest common subsequence (a
common subsequence of that length exists and none is longer). -/
theorem claim6_word_path (oldT newT : List Char)
    (h1 : oldT ≠ []) (h2 : newT ≠ []) (h3 : oldT ≠ newT)
    (h4 : 1000 ≤ oldT.length) (h5 : 1000 ≤ newT.length) :
    countChanges oldT newT =
      (((splitWs newT).length : Int) - (lcsLen (splitWs oldT) (splitWs newT) : Int)) +
        (((splitWs oldT).length : Int) - (lcsLen (splitWs oldT) (splitWs newT) : Int)) ∧
    (∃ c, List.Sublist c (splitWs oldT) ∧ List.Sublist c (splitWs newT) ∧
        c.length = lcsLen (splitWs oldT) (splitWs newT)) ∧
    (∀ c, List.Sublist c (splitWs oldT) → List.Sublist c (splitWs newT) →
        c.length ≤ lcsLen (splitWs oldT) (splitWs newT)) := by
  refine ⟨?_, lcsLen_exists _ _, fun c => lcsLen_ge _ _ c⟩
  rw [countChanges, if_neg (by tauto), if_neg h3, if_neg (by omega),
    longestCommonSubsequenceLength_eq]

set_option maxRecDepth 4000 in
/-- C6 witness: two single-word 1000-plus-character texts. -/
theorem claim6_witness :
    countChanges (List.replicate 1000 'a') (List.replicate 1000 'a' ++ ['b']) =
      (((splitWs (List.replicate 1000 'a' ++ ['b'])).length : Int) -
          (lcsLen (splitWs (List.replicate 1000 'a'))
            (splitWs (List.replicate 1000 'a' ++ ['b'])) : Int)) +
        (((splitWs (List.replicate 1000 'a')).length : Int) -
          (lcsLen (splitWs (List.replicate 1000 'a'))
            (splitWs (List.replicate 1000 'a' ++ ['b'])) : Int)) ∧
    (∃ c, List.Sublist c (splitWs (List.replicate 1000 'a')) ∧
        List.Sublist c (splitWs (List.replicate 1000 'a' ++ ['b'])) ∧
        c.length = lcsLen (splitWs (List.replicate 1000 'a'))
          (splitWs (List.replicate 1000 'a' ++ ['b']))) ∧
    (∀ c, List.Sublist c (splitWs (List.replicate 1000 'a')) →
        List.Sublist c (splitWs (List.replicate 1000 'a' ++ ['b'])) →
        c.length ≤ lcsLen (splitWs (List.replicate 1000 'a'))
          (splitWs (List.replicate 1000 'a' ++ ['b']))) :=
  by
  have hl1 : (List.replicate 1000 'a').length = 1000 := List.length_replicate _ _
  have hl2 : (List.replicate 1000 'a' ++ ['b']).length = 1001 := by
    rw [List.length_append, hl1]
    rfl
  refine claim6_word_path _ _ ?_ ?_ ?_ ?_ ?_
  · intro h
    have hc := congrArg List.length h
    rw [hl1, List.length_nil] at hc
    omega
  · intro h
    have hc := congrArg List.length h
    rw [hl2, List.length_nil] at hc
    omega
  · intro h
    have hc := congrArg List.length h
    rw [hl1, hl2] at hc
    omega
  · rw [hl1]
  · rw [hl2]
    omega

/-- C4 counterexample: extraction is not idempotent on its own output, because
entity decoding happens after tag stripping and can reintroduce markup:
extracting the six-character text produced from the markup below removes it
entirely on a second pass. -/
theorem claim4_counterexample :
    extractText (extractText (toL "&amp;nbsp;")) ≠ extractText (toL "&amp;nbsp;") := by
  decide

/-- C4 (amended): extraction is idempotent on outputs free of the markup
characters it can reintroduce: if the extracted text contains no < and no &,
re-extracting it yields it unchanged. -/
theorem claim4_amended (m : List Char)
    (h : ∀ c ∈ extractText m, c ≠ '<' ∧ c ≠ '&') :
    extractText (extractText m) = extractText m := by
  by_cases hm : m = []
  · subst hm
    rfl
  · by_cases ht : extractText m = []
    · rw [ht]
      rfl
    · have hlt : ∀ c ∈ extractText m, c ≠ '<' := fun c hc => (h c hc).1
      have hamp : ∀ c ∈ extractText m, c ≠ '&' := fun c hc => (h c hc).2
      conv_lhs => rw [extractText, if_neg ht]
      rw [removeScripts_id _ hlt, removeStyles_id _ hlt, stripTags,
        stripTagsGo_id _ hlt, decNbsp_id _ hamp, decAmp_id _ hamp,
        decLt_id _ hamp, decGt_id _ hamp, decQuot_id _ hamp]
      conv_lhs => rw [extractText, if_neg hm]
      conv_rhs => rw [extractText, if_neg hm]
      exact trimWs_collapseGo_fix _

/-- C4 witness: a concrete markup whose extraction contains no < and no &. -/
theorem claim4_witness :
    extractText (extractText (toL "<p>Hello world</p>")) =
      extractText (toL "<p>Hello world</p>") :=
  claim4_amended (toL "<p>Hello world</p>") (by decide)

end WebSentinel
